import Mathlib

/-!
A verification development for the CSV hierarchy-parsing core of the
`formulatehq/data-engineer` repository.

The embedding below mirrors, function by function, the Go source in
`internal/csv/csv_parser.go`, `internal/domain/node.go` and
`internal/errors/errors.go`:

* `Node`, `Node.addNode`  — `domain.Node` and its `AddNode` method.  Go stores
  children in a `map[string]*Node`; here a map is represented canonically as an
  association list strictly sorted by key (`insCh` / `lkCh`), so that
  structural equality of `Node` values coincides with extensional equality of
  the Go maps.  `AddNode` mutates in place under a mutex; the functional
  translation threads the updated tree through.
* `extractColIndexes` — header-schema resolution, including the two recognized
  column shapes (`item_id` and `level_<integer>`), duplicate detection via the
  `seenLevels` set, and the three final validation checks.
* `extractHierarchyLevels` — per-row extraction of the hierarchy path, walking
  level columns `level_1 .. level_(len(colIndexes)-1)` in order.
* `processRow` / `seqProcessRows` / `seqParseFile` — the per-record work of
  `parseRow` and the `ParseFile` pipeline.  The concurrent fan-out is modelled
  sequentially: workers fold each record's insertion into the shared tree, so a
  run of the pipeline corresponds to folding the records in some order; the
  order-(in)dependence of that fold is what the concurrency claims are about.
* `GoError` / `IsKnownUserError` — the error-sentinel wrapping discipline of
  `internal/errors`.  `GoError.wraps s` stands for any `xerrors.Errorf`
  chain whose `%w` cause is the sentinel `s`; `GoError.missingIndex` is the
  sentinel-free `xerrors.Errorf("invalid index found: %s", colName)` error in
  `extractHierarchyLevels`; `GoError.readFailure` stands for an underlying
  stream/CSV read failure.
* `parseCSV` — the `encoding/csv` record decoding, restricted to the
  quote-free, CR-free inputs used by the claims (fields split on commas, rows
  on newlines, blank lines skipped).
* `parseGoInt` — `strconv.Atoi` (optional sign, decimal digits); modelled with
  unbounded integers, as all suffixes of interest are far below the `int`
  overflow bound.
* `natDigs` — the decimal rendering used by `fmt.Sprintf("%s%d", LV_PREFIX, i)`
  when the code reconstructs canonical level-column names.
-/

namespace CsvHierarchy

/-! ### Decimal digits: `fmt.Sprintf("%d")` and the digit part of `strconv.Atoi` -/

/-- The character for a decimal digit value. -/
def digitChar (n : Nat) : Char := Char.ofNat (48 + n)

/-- Fuel-driven decimal rendering of a natural number (most significant digit
first), mirroring the decimal output of `fmt.Sprintf("%d")`. -/
def natDigsAux : Nat → Nat → List Char
  | 0, _ => []
  | fuel + 1, n => if n < 10 then [digitChar n] else natDigsAux fuel (n / 10) ++ [digitChar (n % 10)]

/-- Decimal digit string of a natural number. -/
def natDigs (n : Nat) : List Char := natDigsAux (n + 1) n

/-- Value of one decimal digit character, `none` on a non-digit. -/
def charDigit (c : Char) : Option Nat :=
  if '0' ≤ c ∧ c ≤ '9' then some (c.toNat - 48) else none

/-- Accumulating decimal parse of a digit run; fails on any non-digit. -/
def parseDigitsAcc : List Char → Nat → Option Nat
  | [], acc => some acc
  | c :: rest, acc =>
    match charDigit c with
    | some d => parseDigitsAcc rest (acc * 10 + d)
    | none => none

/-- Parse a non-empty run of decimal digits. -/
def parseNatDigits : List Char → Option Nat
  | [] => none
  | c :: rest => parseDigitsAcc (c :: rest) 0

/-- Model of Go `strconv.Atoi`: optional `+`/`-` sign followed by a non-empty
run of decimal digits.  (Overflow of the 64-bit `int` range is not modelled:
every suffix the claims touch is tiny.) -/
def parseGoInt : List Char → Option Int
  | [] => none
  | c :: rest =>
    if c = '+' then (parseNatDigits rest).map Int.ofNat
    else if c = '-' then (parseNatDigits rest).map (fun n => -(n : Int))
    else (parseNatDigits (c :: rest)).map Int.ofNat

/-- The literal item-identifier column name (`ITEM_ID` in the Go source). -/
def ITEM_ID : String := "item_id"

/-- The canonical level-column name `fmt.Sprintf("%s%d", LV_PREFIX, i)`,
i.e. `"level_" + decimal(i)`. -/
def levelName (i : Nat) : String := ⟨'l' :: 'e' :: 'v' :: 'e' :: 'l' :: '_' :: natDigs i⟩

/-- Model of `strings.HasPrefix(col, LV_PREFIX)` plus
`strings.TrimPrefix(col, LV_PREFIX)`: strip the six characters `level_`,
returning the suffix, or `none` when the name does not start with `level_`. -/
def stripLevelPre : List Char → Option (List Char)
  | 'l' :: 'e' :: 'v' :: 'e' :: 'l' :: '_' :: rest => some rest
  | _ => none

/-- The level depth encoded by a column name: the `strconv.Atoi` value of the
suffix after `level_`, or `none` when the name is not level-shaped. -/
def colLevel (c : String) : Option Int := (stripLevelPre c.data).bind parseGoInt

/-! ### Error sentinels (`internal/errors`) -/

/-- The error sentinels declared in `internal/errors/errors.go`. -/
inductive Sentinel where
  | unknownColumn
  | missingRequiredColumn
  | missingRequiredValue
  | missingParentElement
  | reoccurringColumn
deriving DecidableEq, Repr

/-- The `KnownUserErrors` slice. -/
def KnownUserErrors : List Sentinel :=
  [.unknownColumn, .missingRequiredColumn, .missingParentElement,
   .missingRequiredValue, .reoccurringColumn]

/-- Errors the parser can produce.  `wraps s` is any `xerrors.Errorf` chain
whose `%w` cause is the sentinel `s` (re-wrapping by callers preserves the
chain, so `errors.Is` still finds `s`).  `missingIndex col` is the
sentinel-free `xerrors.Errorf("invalid index found: %s", colName)` error.
`readFailure` is an underlying CSV/stream read failure. -/
inductive GoError where
  | wraps (s : Sentinel)
  | missingIndex (colName : String)
  | readFailure
deriving DecidableEq, Repr

/-- `errors.IsKnownUserError`: whether `errors.Is` finds one of the known
user-error sentinels in the error chain. -/
def IsKnownUserError : GoError → Bool
  | .wraps s => KnownUserErrors.contains s
  | _ => false

/-! ### The hierarchy tree (`domain.Node`) -/

/-- `domain.Node`: a leaf flag (`Item` in Go) and a children map.  The Go
`map[string]*Node` (`nil` and empty maps are identified) is represented as an
association list strictly sorted by key, so structural equality is map
equality. -/
inductive Node where
  | mk (item : Bool) (children : List (String × Node))

/-- The leaf flag of a node (`Item` field). -/
def Node.item : Node → Bool
  | .mk i _ => i

/-- The children map of a node (`Children` field). -/
def Node.children : Node → List (String × Node)
  | .mk _ c => c

/-- Strict lexicographic order on character lists, used to keep children keys
sorted (the particular order is irrelevant: any strict total order yields a
canonical representation of the Go map). -/
def charListLt : List Char → List Char → Bool
  | [], [] => false
  | [], _ :: _ => true
  | _ :: _, [] => false
  | a :: as, b :: bs => if a < b then true else if a = b then charListLt as bs else false

/-- Key order on strings. -/
def keyLt (a b : String) : Bool := charListLt a.data b.data

/-- Insert (or overwrite) a key in a sorted children list: the map update
`children[k] = v`. -/
def insCh (k : String) (v : Node) : List (String × Node) → List (String × Node)
  | [] => [(k, v)]
  | (a, w) :: t =>
    if keyLt k a then (k, v) :: (a, w) :: t
    else if k = a then (k, v) :: t
    else (a, w) :: insCh k v t

/-- Look a key up in a children list: the map read `children[k]`. -/
def lkCh (k : String) : List (String × Node) → Option Node
  | [] => none
  | (a, w) :: t => if k = a then some w else lkCh k t

/-- `domain.Node.AddNode`: walk the path of `levels`, creating any missing
intermediate node (`&Node{}`), then set `children[itemID] = &Node{Item: true}`
at the end of the walk.  The Go method mutates in place under a mutex; this
translation threads the updated tree. -/
def Node.addNode : Node → List String → String → Node
  | n, [], itemID => .mk n.item (insCh itemID (.mk true []) n.children)
  | n, level :: rest, itemID =>
    let child := (lkCh level n.children).getD (.mk false [])
    .mk n.item (insCh level (child.addNode rest itemID) n.children)

/-- The node reached from `n` by following a path of child keys. -/
def lookupPath (n : Node) : List String → Option Node
  | [] => some n
  | k :: ks =>
    match lkCh k n.children with
    | none => none
    | some c => lookupPath c ks

/-- Boolean list-prefix test (a helper for stating which tree positions an
insertion may touch). -/
def isPre : List String → List String → Bool
  | [], _ => true
  | _ :: _, [] => false
  | a :: as, b :: bs => if a = b then isPre as bs else false

/-! ### Header-schema resolution (`extractColIndexes`) -/

/-- Index lookup in the role-to-column mapping (`colIndexes[name]`). -/
def lkIdx (k : String) : List (String × Nat) → Option Nat
  | [] => none
  | (a, i) :: t => if k = a then some i else lkIdx k t

/-- The header loop of `extractColIndexes`: scan columns left to right,
recording `item_id` (rejecting a duplicate), and each `level_`-prefixed column
whose suffix parses with `strconv.Atoi` (rejecting a duplicate level number via
`seenLevels`); any other name is an unknown column.  Returns the
role-to-index mapping and the set of seen level numbers. -/
def extractColIndexesAux :
    List String → Nat → List (String × Nat) → List Int →
    Except GoError (List (String × Nat) × List Int)
  | [], _, ci, seen => .ok (ci, seen)
  | col :: rest, idx, ci, seen =>
    if col = ITEM_ID then
      match lkIdx ITEM_ID ci with
      | some _ => .error (.wraps .reoccurringColumn)
      | none => extractColIndexesAux rest (idx + 1) (ci ++ [(ITEM_ID, idx)]) seen
    else
      match stripLevelPre col.data with
      | some levelStr =>
        match parseGoInt levelStr with
        | none => .error (.wraps .unknownColumn)
        | some levelNum =>
          if levelNum ∈ seen then .error (.wraps .reoccurringColumn)
          else extractColIndexesAux rest (idx + 1) (ci ++ [(col, idx)]) (levelNum :: seen)
      | none => .error (.wraps .unknownColumn)

/-- `extractColIndexes`: run the header loop, then check that `item_id` and
`level_1` are present and that every seen level `> 1` has its predecessor
level seen. -/
def extractColIndexes (columns : List String) : Except GoError (List (String × Nat)) :=
  match extractColIndexesAux columns 0 [] [] with
  | .error e => .error e
  | .ok (ci, seen) =>
    if (lkIdx ITEM_ID ci).isNone then .error (.wraps .missingRequiredColumn)
    else if (lkIdx (levelName 1) ci).isNone then .error (.wraps .missingRequiredColumn)
    else if seen.any (fun l => decide (1 < l) && !(seen.contains (l - 1))) then
      .error (.wraps .missingParentElement)
    else .ok ci

/-! ### Row processing (`extractHierarchyLevels`, `parseRow`) -/

/-- The loop of `extractHierarchyLevels`: for `i = 1 .. len(colIndexes)-1`
look up the column index of `level_i` (a sentinel-free error when absent),
fail when the row is too short for it, fail when a non-empty value follows an
empty immediate parent, and collect the non-empty values in order.  `rem` is
the number of remaining iterations. -/
def extractLevelsAux (row : List String) (ci : List (String × Nat)) :
    Nat → Nat → String → Except GoError (List String)
  | 0, _, _ => .ok []
  | rem + 1, i, currentParent =>
    match lkIdx (levelName i) ci with
    | none => .error (.missingIndex (levelName i))
    | some index =>
      if index < row.length then
        if i ≠ 1 ∧ currentParent = "" ∧ row.getD index "" ≠ "" then
          .error (.wraps .missingParentElement)
        else
          match extractLevelsAux row ci rem (i + 1) (row.getD index "") with
          | .error e => .error e
          | .ok rest =>
            .ok (if row.getD index "" = "" then rest else row.getD index "" :: rest)
      else .error (.wraps .missingRequiredValue)

/-- `extractHierarchyLevels`: the hierarchy path of one row, levels
`1 .. len(colIndexes)-1` in increasing depth order. -/
def extractHierarchyLevels (row : List String) (ci : List (String × Nat)) :
    Except GoError (List String) :=
  extractLevelsAux row ci (ci.length - 1) 1 ""

/-- The per-record body of `parseRow`: extract the hierarchy path, extract the
item identifier (failing when `item_id` is unmapped or the row is too short),
and insert into the tree. -/
def processRow (ci : List (String × Nat)) (t : Node) (row : List String) :
    Except GoError Node :=
  match extractHierarchyLevels row ci with
  | .error e => .error e
  | .ok levels =>
    match lkIdx ITEM_ID ci with
    | none => .error (.wraps .missingRequiredValue)
    | some itemIndex =>
      if itemIndex < row.length then .ok (t.addNode levels (row.getD itemIndex ""))
      else .error (.wraps .missingRequiredValue)

/-- Fold the records through `processRow`, stopping at the first error.  This
is the record-processing part of `ParseFile`; a concurrent run corresponds to
this fold over some reordering of the records. -/
def seqProcessRows (ci : List (String × Nat)) : Node → List (List String) → Except GoError Node
  | t, [] => .ok t
  | t, r :: rs =>
    match processRow ci t r with
    | .error e => .error e
    | .ok t' => seqProcessRows ci t' rs

/-- `ParseFile` on an already-decoded record stream: the first record is the
header (its absence is a read failure), the rest are data rows processed into
a tree rooted at `NewNode()`. -/
def seqParseFile : List (List String) → Except GoError Node
  | [] => .error .readFailure
  | header :: rows =>
    match extractColIndexes header with
    | .error e => .error e
    | .ok ci => seqProcessRows ci (.mk false []) rows

/-- Split a character list on a separator (no quoting). -/
def splitOnChar (sep : Char) : List Char → List (List Char)
  | [] => [[]]
  | c :: rest =>
    let r := splitOnChar sep rest
    if c = sep then [] :: r
    else
      match r with
      | [] => [[c]]
      | g :: gs => (c :: g) :: gs

/-- `encoding/csv` record decoding for the quote-free, CR-free inputs of the
claims: rows are newline-separated, fields comma-separated, and blank lines
are skipped (as `csv.Reader` does). -/
def parseCSV (s : String) : List (List String) :=
  ((splitOnChar '\n' s.data).filter (fun l => l ≠ [])).map
    (fun line => (splitOnChar ',' line).map (fun cs => ⟨cs⟩))

/-- One record's insertion: the fold step applied per row by the workers. -/
def rowIns (t : Node) (r : List String × String) : Node := t.addNode r.1 r.2

/-- The full tree position a record writes its leaf to: its hierarchy path
extended by its item identifier. -/
def fullPos (r : List String × String) : List String := r.1 ++ [r.2]

/-- The role-to-index entries the header loop accumulates for a suffix of the
header: each column name paired with its zero-based position, starting at
`idx`. -/
def hdrEntries : List String → Nat → List (String × Nat)
  | [], _ => []
  | c :: rest, idx => (c, idx) :: hdrEntries rest (idx + 1)

/-- A header consisting of `item_id` together with the canonical level names
`level_1 .. level_k` (order of appearance abstracted by permutation). -/
def canonicalHeader (k : Nat) : List String :=
  ITEM_ID :: (List.range k).map (fun j => levelName (j + 1))

/-- The end-to-end example input (spec scenario 1). -/
def exampleInput : String :=
  "level_1,level_2,level_3,item_id\n1,12,103,12507622\n1,13,,32622917\n"

/-- The tree that scenario 1 must produce:
root → 1 → (12 → 103 → 12507622 leaf, 13 → 32622917 leaf). -/
def exampleTree : Node :=
  .mk false
    [("1", .mk false
      [("12", .mk false [("103", .mk false [("12507622", .mk true [])])]),
       ("13", .mk false [("32622917", .mk true [])])])]

/-! ### Order facts about the key comparator -/

theorem charListLt_irrefl : ∀ l, charListLt l l = false
  | [] => rfl
  | a :: as => by
    show (if a < a then true else if a = a then charListLt as as else false) = false
    rw [if_neg (lt_irrefl a), if_pos rfl]
    exact charListLt_irrefl as

theorem charListLt_asymm :
    ∀ {l₁ l₂}, charListLt l₁ l₂ = true → charListLt l₂ l₁ = false
  | [], [], h => by simp [charListLt] at h
  | [], _ :: _, _ => rfl
  | _ :: _, [], h => by simp [charListLt] at h
  | a :: as, b :: bs, h => by
    show (if b < a then true else if b = a then charListLt bs as else false) = false
    by_cases hab : a < b
    · rw [if_neg (lt_asymm hab), if_neg (ne_of_gt hab)]
    · have h' : charListLt as bs = true := by
        by_cases heq : a = b
        · simpa [charListLt, hab, heq] using h
        · simp [charListLt, hab, heq] at h
      have heq : a = b := by
        by_cases heq : a = b
        · exact heq
        · simp [charListLt, hab, heq] at h
      subst heq
      rw [if_neg (lt_irrefl a), if_pos rfl]
      exact charListLt_asymm h'

theorem charListLt_trans :
    ∀ {l₁ l₂ l₃}, charListLt l₁ l₂ = true → charListLt l₂ l₃ = true →
      charListLt l₁ l₃ = true
  | [], [], _, h₁, _ => by simp [charListLt] at h₁
  | [], _ :: _, [], _, h₂ => by simp [charListLt] at h₂
  | [], _ :: _, _ :: _, _, _ => rfl
  | _ :: _, [], _, h₁, _ => by simp [charListLt] at h₁
  | _ :: _, _ :: _, [], _, h₂ => by simp [charListLt] at h₂
  | a :: as, b :: bs, c :: cs, h₁, h₂ => by
    show (if a < c then true else if a = c then charListLt as cs else false) = true
    by_cases hab : a < b
    · by_cases hbc : b < c
      · rw [if_pos (lt_trans hab hbc)]
      · have heq : b = c := by
          by_cases heq : b = c
          · exact heq
          · simp [charListLt, hbc, heq] at h₂
        rw [if_pos (heq ▸ hab)]
    · have heq : a = b := by
        by_cases heq : a = b
        · exact heq
        · simp [charListLt, hab, heq] at h₁
      subst heq
      have h₁' : charListLt as bs = true := by simpa [charListLt, hab] using h₁
      by_cases hbc : a < c
      · rw [if_pos hbc]
      · have heq : a = c := by
          by_cases heq : a = c
          · exact heq
          · simp [charListLt, hbc, heq] at h₂
        subst heq
        have h₂' : charListLt bs cs = true := by simpa [charListLt, hbc] using h₂
        rw [if_neg (lt_irrefl a), if_pos rfl]
        exact charListLt_trans h₁' h₂'

theorem charListLt_conn :
    ∀ {l₁ l₂}, charListLt l₁ l₂ = false → charListLt l₂ l₁ = false → l₁ = l₂
  | [], [], _, _ => rfl
  | [], _ :: _, h₁, _ => by simp [charListLt] at h₁
  | _ :: _, [], _, h₂ => by simp [charListLt] at h₂
  | a :: as, b :: bs, h₁, h₂ => by
    by_cases hab : a < b
    · simp [charListLt, hab] at h₁
    · by_cases hba : b < a
      · simp [charListLt, hba] at h₂
      · have heq : a = b := le_antisymm (not_lt.mp hba) (not_lt.mp hab)
        subst heq
        have h₁' : charListLt as bs = false := by simpa [charListLt, hab] using h₁
        have h₂' : charListLt bs as = false := by simpa [charListLt, hab] using h₂
        rw [charListLt_conn h₁' h₂']

theorem keyLt_irrefl (k : String) : keyLt k k = false := charListLt_irrefl _

theorem keyLt_asymm {a b : String} (h : keyLt a b = true) : keyLt b a = false :=
  charListLt_asymm h

theorem keyLt_trans {a b c : String} (h₁ : keyLt a b = true) (h₂ : keyLt b c = true) :
    keyLt a c = true := charListLt_trans h₁ h₂

theorem keyLt_conn {a b : String} (h₁ : keyLt a b = false) (h₂ : keyLt b a = false) :
    a = b := by
  cases a with
  | mk da => cases b with
    | mk db => exact congrArg String.mk (charListLt_conn h₁ h₂)

/-- Two distinct keys compare strictly in one direction. -/
theorem keyLt_of_ne_of_not_lt {a b : String} (hne : a ≠ b) (h : keyLt a b = false) :
    keyLt b a = true := by
  cases hba : keyLt b a with
  | true => rfl
  | false => exact absurd (keyLt_conn h hba) hne

/-! ### Children-map lemmas -/

theorem lkCh_insCh_self (k : String) (v : Node) :
    ∀ l, lkCh k (insCh k v l) = some v
  | [] => by simp [insCh, lkCh]
  | (a, w) :: t => by
    by_cases hlt : keyLt k a
    · simp [insCh, hlt, lkCh]
    · by_cases heq : k = a
      · simp [insCh, hlt, heq, lkCh, keyLt_irrefl]
      · simp only [insCh, hlt, heq, if_false, Bool.false_eq_true]
        simp only [lkCh, if_neg heq]
        exact lkCh_insCh_self k v t

theorem lkCh_insCh_ne {k k' : String} (hne : k' ≠ k) (v : Node) :
    ∀ l, lkCh k' (insCh k v l) = lkCh k' l
  | [] => by simp [insCh, lkCh, hne]
  | (a, w) :: t => by
    by_cases hlt : keyLt k a
    · simp [insCh, hlt, lkCh, hne]
    · by_cases heq : k = a
      · subst heq
        simp [insCh, hlt, lkCh, hne]
      · simp only [insCh, hlt, heq, if_false, Bool.false_eq_true]
        by_cases h'a : k' = a
        · simp [lkCh, h'a]
        · simp only [lkCh, if_neg h'a]
          exact lkCh_insCh_ne hne v t

theorem insCh_insCh_self (k : String) (v w : Node) :
    ∀ l, insCh k v (insCh k w l) = insCh k v l
  | [] => by simp [insCh, keyLt_irrefl]
  | (a, x) :: t => by
    by_cases hlt : keyLt k a
    · simp [insCh, hlt, keyLt_irrefl]
    · by_cases heq : k = a
      · subst heq
        simp [insCh, hlt, keyLt_irrefl]
      · simp only [insCh, hlt, heq, if_false, Bool.false_eq_true]
        rw [insCh_insCh_self k v w t]

theorem insCh_comm {k₁ k₂ : String} (hne : k₁ ≠ k₂) (v₁ v₂ : Node) :
    ∀ l, insCh k₁ v₁ (insCh k₂ v₂ l) = insCh k₂ v₂ (insCh k₁ v₁ l)
  | [] => by
    by_cases h12 : keyLt k₁ k₂
    · simp [insCh, h12, keyLt_asymm h12, hne.symm]
    · have h21 : keyLt k₂ k₁ = true := keyLt_of_ne_of_not_lt hne (by simpa using h12)
      simp [insCh, h12, h21, hne]
  | (a, w) :: t => by
    by_cases h1a : keyLt k₁ a
    · by_cases h2a : keyLt k₂ a
      · -- both go to the front; they order by the k₁/k₂ comparison
        by_cases h12 : keyLt k₁ k₂
        · simp [insCh, h1a, h2a, h12, keyLt_asymm h12, hne, hne.symm]
        · have h21 : keyLt k₂ k₁ = true := keyLt_of_ne_of_not_lt hne (by simpa using h12)
          simp [insCh, h1a, h2a, h12, h21, hne, hne.symm]
      · by_cases h2e : k₂ = a
        · -- k₂ replaces the head, k₁ goes in front of it
          subst h2e
          simp [insCh, h1a, h2a, hne, hne.symm, keyLt_asymm h1a, keyLt_irrefl]
        · -- k₁ in front, k₂ further in: k₂ > a > k₁
          have h21 : keyLt k₂ k₁ = false := by
            cases h : keyLt k₂ k₁ with
            | false => rfl
            | true => exact absurd (keyLt_trans h h1a) h2a
          have h12 : keyLt k₁ k₂ = true := keyLt_of_ne_of_not_lt (Ne.symm hne) h21
          simp [insCh, h1a, h2a, h2e, h12, h21, hne.symm]
    · by_cases h1e : k₁ = a
      · subst h1e
        by_cases h2a : keyLt k₂ k₁
        · simp [insCh, h1a, h2a, hne, hne.symm, keyLt_asymm h2a, keyLt_irrefl]
        · have h2e : k₂ ≠ k₁ := Ne.symm hne
          have h12 : keyLt k₁ k₂ = true :=
            keyLt_of_ne_of_not_lt h2e (by simpa using h2a)
          simp [insCh, h1a, h2a, h2e, h12, keyLt_asymm h12, hne, keyLt_irrefl]
      · by_cases h2a : keyLt k₂ a
        · -- symmetric to the earlier mixed case: k₁ > a > k₂
          have h12 : keyLt k₁ k₂ = false := by
            cases h : keyLt k₁ k₂ with
            | false => rfl
            | true => exact absurd (keyLt_trans h h2a) h1a
          have h21 : keyLt k₂ k₁ = true := keyLt_of_ne_of_not_lt hne h12
          simp [insCh, h1a, h1e, h2a, h21, h12, hne]
        · by_cases h2e : k₂ = a
          · subst h2e
            simp [insCh, h1a, h1e, h2a, keyLt_irrefl, hne]
          · -- both recurse past the head
            simp only [insCh, h1a, h2a, h1e, h2e, if_false, Bool.false_eq_true]
            rw [insCh_comm hne v₁ v₂ t]

/-! ### Insertion lemmas for the tree -/

theorem addNode_idem : ∀ (p : List String) (t : Node) (i : String),
    (t.addNode p i).addNode p i = t.addNode p i
  | [], t, i => by
    simp only [Node.addNode, Node.item, Node.children, insCh_insCh_self]
  | l :: ls, t, i => by
    simp only [Node.addNode, Node.item, Node.children, lkCh_insCh_self, Option.getD_some]
    rw [addNode_idem ls, insCh_insCh_self]

theorem lookupPath_addNode_self : ∀ (p : List String) (t : Node) (i : String),
    lookupPath (t.addNode p i) (p ++ [i]) = some (.mk true [])
  | [], t, i => by
    simp only [Node.addNode, List.nil_append, lookupPath, Node.children, lkCh_insCh_self]
  | l :: ls, t, i => by
    simp only [Node.addNode, List.cons_append, lookupPath, Node.children, lkCh_insCh_self]
    exact lookupPath_addNode_self ls _ i

theorem addNode_keeps : ∀ (p : List String) (t : Node) (i : String) (q : List String) (v : Node),
    lookupPath t q = some v → isPre (p ++ [i]) q = false →
    ∃ v', lookupPath (t.addNode p i) q = some v' ∧ v'.item = v.item
  | [], .mk it ch, i, [], v, hv, _ => by
    simp only [lookupPath, Option.some.injEq] at hv
    refine ⟨.mk it (insCh i (.mk true []) ch), rfl, ?_⟩
    rw [← hv]
    rfl
  | [], .mk it ch, i, k :: ks, v, hv, hq => by
    have hik : i ≠ k := by
      intro h
      simp [isPre, h, List.nil_append] at hq
    simp only [lookupPath, Node.children] at hv
    cases hc : lkCh k ch with
    | none => rw [hc] at hv; exact absurd hv (by simp)
    | some c =>
      rw [hc] at hv
      refine ⟨v, ?_, rfl⟩
      simp only [Node.addNode, lookupPath, Node.item, Node.children,
        lkCh_insCh_ne (Ne.symm hik), hc]
      exact hv
  | l :: ls, .mk it ch, i, [], v, hv, _ => by
    simp only [lookupPath, Option.some.injEq] at hv
    refine ⟨_, rfl, ?_⟩
    rw [← hv]
    rfl
  | l :: ls, .mk it ch, i, k :: ks, v, hv, hq => by
    simp only [lookupPath, Node.children] at hv
    cases hc : lkCh k ch with
    | none => rw [hc] at hv; exact absurd hv (by simp)
    | some c =>
      rw [hc] at hv
      by_cases hkl : k = l
      · subst hkl
        have hq' : isPre (ls ++ [i]) ks = false := by
          simpa [isPre, List.cons_append] using hq
        obtain ⟨v', hv', hitem⟩ := addNode_keeps ls c i ks v hv hq'
        refine ⟨v', ?_, hitem⟩
        simp only [Node.addNode, lookupPath, Node.item, Node.children,
          lkCh_insCh_self, hc, Option.getD_some]
        exact hv'
      · refine ⟨v, ?_, rfl⟩
        simp only [Node.addNode, lookupPath, Node.item, Node.children,
          lkCh_insCh_ne hkl, hc]
        exact hv

theorem addNode_comm_nil_cons {i₁ b : String} (hne : i₁ ≠ b) (q₂ : List String)
    (i₂ : String) (t : Node) :
    (t.addNode [] i₁).addNode (b :: q₂) i₂ = (t.addNode (b :: q₂) i₂).addNode [] i₁ := by
  simp only [Node.addNode, Node.item, Node.children,
    lkCh_insCh_ne (Ne.symm hne)]
  rw [insCh_comm (Ne.symm hne)]

theorem addNode_comm :
    ∀ (p₁ : List String) (i₁ : String) (p₂ : List String) (i₂ : String),
      (p₁ ++ [i₁] = p₂ ++ [i₂] ∨
        (isPre (p₁ ++ [i₁]) (p₂ ++ [i₂]) = false ∧
         isPre (p₂ ++ [i₂]) (p₁ ++ [i₁]) = false)) →
      ∀ t : Node, (t.addNode p₁ i₁).addNode p₂ i₂ = (t.addNode p₂ i₂).addNode p₁ i₁
  | [], i₁, [], i₂, h, t => by
    rcases h with h | ⟨h, _⟩
    · simp only [List.nil_append, List.cons.injEq, and_true] at h
      rw [h]
    · have hne : i₁ ≠ i₂ := by
        intro he
        simp [isPre, he, List.nil_append] at h
      simp only [Node.addNode, Node.item, Node.children]
      rw [insCh_comm hne]
  | [], i₁, b :: q₂, i₂, h, t => by
    have hne : i₁ ≠ b := by
      rcases h with h | ⟨h, _⟩
      · intro _
        have := congrArg List.length h
        simp [List.length_append] at this
      · intro he
        simp [isPre, he, List.nil_append, List.cons_append] at h
    exact addNode_comm_nil_cons hne q₂ i₂ t
  | a :: q₁, i₁, [], i₂, h, t => by
    have hne : i₂ ≠ a := by
      rcases h with h | ⟨_, h⟩
      · intro _
        have := congrArg List.length h
        simp [List.length_append] at this
      · intro he
        simp [isPre, he, List.nil_append, List.cons_append] at h
    exact (addNode_comm_nil_cons hne q₁ i₁ t).symm
  | a :: q₁, i₁, b :: q₂, i₂, h, t => by
    by_cases hab : a = b
    · subst hab
      have h' : q₁ ++ [i₁] = q₂ ++ [i₂] ∨
          (isPre (q₁ ++ [i₁]) (q₂ ++ [i₂]) = false ∧
           isPre (q₂ ++ [i₂]) (q₁ ++ [i₁]) = false) := by
        rcases h with h | ⟨h₁, h₂⟩
        · left
          simpa [List.cons_append] using h
        · right
          constructor
          · simpa [isPre, List.cons_append] using h₁
          · simpa [isPre, List.cons_append] using h₂
      simp only [Node.addNode, Node.item, Node.children, lkCh_insCh_self,
        Option.getD_some]
      rw [insCh_insCh_self, insCh_insCh_self, addNode_comm q₁ i₁ q₂ i₂ h']
    · simp only [Node.addNode, Node.item, Node.children,
        lkCh_insCh_ne (Ne.symm hab), lkCh_insCh_ne hab]
      rw [insCh_comm hab]

/-! ### Decimal round trip: `strconv.Atoi` inverts `fmt.Sprintf("%d")` -/

theorem charDigit_digitChar {d : Nat} (hd : d < 10) : charDigit (digitChar d) = some d := by
  interval_cases d <;> decide

theorem digitChar_ne_plus {d : Nat} (hd : d < 10) : digitChar d ≠ '+' := by
  interval_cases d <;> decide

theorem digitChar_ne_minus {d : Nat} (hd : d < 10) : digitChar d ≠ '-' := by
  interval_cases d <;> decide

theorem natDigsAux_ne_nil : ∀ fuel n, 0 < fuel → natDigsAux fuel n ≠ []
  | 0, _, h => absurd h (lt_irrefl 0)
  | fuel + 1, n, _ => by
    rw [natDigsAux]
    split
    · simp
    · simp

theorem natDigsAux_mem_digit :
    ∀ fuel n c, c ∈ natDigsAux fuel n → ∃ d, d < 10 ∧ c = digitChar d
  | 0, _, c, h => absurd h (by simp [natDigsAux])
  | fuel + 1, n, c, h => by
    rw [natDigsAux] at h
    by_cases h10 : n < 10
    · rw [if_pos h10] at h
      simp only [List.mem_singleton] at h
      exact ⟨n, h10, h⟩
    · rw [if_neg h10] at h
      rw [List.mem_append] at h
      rcases h with h | h
      · exact natDigsAux_mem_digit fuel (n / 10) c h
      · simp only [List.mem_singleton] at h
        exact ⟨n % 10, Nat.mod_lt _ (by norm_num), h⟩

theorem parseDigitsAcc_append_last :
    ∀ (xs : List Char) (c : Char) (acc : Nat),
      parseDigitsAcc (xs ++ [c]) acc =
        match parseDigitsAcc xs acc with
        | some a =>
          match charDigit c with
          | some d => some (a * 10 + d)
          | none => none
        | none => none
  | [], c, acc => by
    have h1 : parseDigitsAcc ([] ++ [c]) acc =
        match charDigit c with
        | some d => parseDigitsAcc [] (acc * 10 + d)
        | none => none := rfl
    rw [h1]
    cases charDigit c with
    | none => rfl
    | some d => rfl
  | x :: xs, c, acc => by
    have h1 : parseDigitsAcc ((x :: xs) ++ [c]) acc =
        match charDigit x with
        | some d => parseDigitsAcc (xs ++ [c]) (acc * 10 + d)
        | none => none := rfl
    have h2 : parseDigitsAcc (x :: xs) acc =
        match charDigit x with
        | some d => parseDigitsAcc xs (acc * 10 + d)
        | none => none := rfl
    rw [h1, h2]
    cases charDigit x with
    | none => rfl
    | some d => exact parseDigitsAcc_append_last xs c (acc * 10 + d)

theorem parseDigitsAcc_natDigsAux :
    ∀ fuel n, n < 10 ^ fuel → 0 < fuel → parseDigitsAcc (natDigsAux fuel n) 0 = some n
  | 0, _, _, h0 => absurd h0 (lt_irrefl 0)
  | fuel + 1, n, hlt, _ => by
    rw [natDigsAux]
    by_cases h10 : n < 10
    · rw [if_pos h10]
      have h1 : parseDigitsAcc [digitChar n] 0 =
          match charDigit (digitChar n) with
          | some d => parseDigitsAcc [] (0 * 10 + d)
          | none => none := rfl
      rw [h1, charDigit_digitChar h10]
      show some (0 * 10 + n) = some n
      simp
    · rw [if_neg h10]
      have hfuel : 0 < fuel := by
        rcases Nat.eq_zero_or_pos fuel with h | h
        · subst h
          simp at hlt
          omega
        · exact h
      have hdiv : n / 10 < 10 ^ fuel := by
        rw [Nat.div_lt_iff_lt_mul (by norm_num)]
        calc n < 10 ^ (fuel + 1) := hlt
          _ = 10 ^ fuel * 10 := by ring
      rw [parseDigitsAcc_append_last]
      rw [parseDigitsAcc_natDigsAux fuel (n / 10) hdiv hfuel]
      rw [charDigit_digitChar (Nat.mod_lt _ (by norm_num))]
      have heq : n / 10 * 10 + n % 10 = n := by omega
      exact congrArg some heq

theorem parseNatDigits_natDigs (n : Nat) : parseNatDigits (natDigs n) = some n := by
  have hval : parseDigitsAcc (natDigs n) 0 = some n :=
    parseDigitsAcc_natDigsAux (n + 1) n
      (lt_of_lt_of_le (@Nat.lt_pow_self 10 (by norm_num) n)
        (Nat.pow_le_pow_right (by norm_num) (Nat.le_succ n)))
      (Nat.succ_pos n)
  cases h : natDigs n with
  | nil => exact absurd h (natDigsAux_ne_nil (n + 1) n (Nat.succ_pos n))
  | cons c rest =>
    rw [parseNatDigits, ← h]
    exact hval

theorem parseGoInt_natDigs (n : Nat) : parseGoInt (natDigs n) = some (Int.ofNat n) := by
  cases h : natDigs n with
  | nil => exact absurd h (natDigsAux_ne_nil (n + 1) n (Nat.succ_pos n))
  | cons c rest =>
    have hmem : c ∈ natDigs n := by
      rw [h]
      exact List.mem_cons_self c rest
    obtain ⟨d, hd, hc⟩ := natDigsAux_mem_digit (n + 1) n c hmem
    rw [parseGoInt]
    rw [if_neg (hc ▸ digitChar_ne_plus hd), if_neg (hc ▸ digitChar_ne_minus hd)]
    rw [← h, parseNatDigits_natDigs]
    rfl

theorem colLevel_levelName (i : Nat) : colLevel (levelName i) = some (Int.ofNat i) := by
  have hstrip : stripLevelPre (levelName i).data = some (natDigs i) := rfl
  rw [colLevel, hstrip, Option.some_bind]
  exact parseGoInt_natDigs i

theorem levelName_inj {a b : Nat} (h : levelName a = levelName b) : a = b := by
  have h' := congrArg colLevel h
  rw [colLevel_levelName, colLevel_levelName] at h'
  exact Int.ofNat.inj (Option.some.inj h')

theorem colLevel_itemId : colLevel ITEM_ID = none := rfl

theorem levelName_ne_itemId (i : Nat) : levelName i ≠ ITEM_ID := by
  intro h
  have h' := congrArg colLevel h
  rw [colLevel_levelName, colLevel_itemId] at h'
  exact Option.noConfusion h'

/-! ### Header-loop lemmas -/

theorem knownAll (s : Sentinel) : KnownUserErrors.contains s = true := by
  cases s <;> rfl

theorem lkIdx_append (k : String) :
    ∀ l₁ l₂, lkIdx k (l₁ ++ l₂) =
      match lkIdx k l₁ with
      | some v => some v
      | none => lkIdx k l₂
  | [], _ => rfl
  | (a, i) :: t, l₂ => by
    by_cases h : k = a
    · simp [lkIdx, h]
    · simp only [List.cons_append, lkIdx, if_neg h]
      exact lkIdx_append k t l₂

theorem getD_mem : ∀ (l : List String) (i : Nat), i < l.length → l.getD i "" ∈ l
  | c :: rest, 0, _ => by simp
  | c :: rest, i + 1, h => by
    simp only [List.getD_cons_succ]
    exact List.mem_cons_of_mem _ (getD_mem rest i (by simpa using h))

theorem hdrEntries_length : ∀ (cols : List String) (idx : Nat),
    (hdrEntries cols idx).length = cols.length
  | [], _ => rfl
  | c :: rest, idx => by
    simp [hdrEntries, hdrEntries_length rest (idx + 1)]

theorem lkIdx_hdrEntries_isSome :
    ∀ (cols : List String) (idx : Nat) (name : String), name ∈ cols →
      (lkIdx name (hdrEntries cols idx)).isSome = true
  | [], _, name, h => absurd h (List.not_mem_nil name)
  | c :: rest, idx, name, h => by
    by_cases hc : name = c
    · simp [hdrEntries, lkIdx, hc]
    · have hmem : name ∈ rest := by
        rcases List.mem_cons.mp h with h | h
        · exact absurd h hc
        · exact h
      simp only [hdrEntries, lkIdx, if_neg hc]
      exact lkIdx_hdrEntries_isSome rest (idx + 1) name hmem

theorem lkIdx_hdrEntries_getD :
    ∀ (cols : List String) (idx i : Nat), i < cols.length → cols.Nodup →
      lkIdx (cols.getD i "") (hdrEntries cols idx) = some (idx + i)
  | [], _, i, h, _ => absurd h (by simp)
  | c :: rest, idx, 0, _, _ => by simp [hdrEntries, lkIdx]
  | c :: rest, idx, i + 1, h, hnd => by
    have hlen : i < rest.length := by simpa using h
    have hmem : rest.getD i "" ∈ rest := getD_mem rest i hlen
    have hne : rest.getD i "" ≠ c := by
      intro he
      exact (List.nodup_cons.mp hnd).1 (he ▸ hmem)
    simp only [hdrEntries, List.getD_cons_succ, lkIdx, if_neg hne]
    rw [lkIdx_hdrEntries_getD rest (idx + 1) i hlen (List.nodup_cons.mp hnd).2]
    congr 1
    omega

/-- Step reduction: first header column is a fresh `item_id`. -/
theorem auxStepItemNew (rest : List String) (idx : Nat) (ci : List (String × Nat))
    (seen : List Int) (hlk : lkIdx ITEM_ID ci = none) :
    extractColIndexesAux (ITEM_ID :: rest) idx ci seen =
      extractColIndexesAux rest (idx + 1) (ci ++ [(ITEM_ID, idx)]) seen := by
  rw [extractColIndexesAux, if_pos rfl, hlk]

/-- Step reduction: first header column is a repeated `item_id`. -/
theorem auxStepItemDup (rest : List String) (idx : Nat) (ci : List (String × Nat))
    (seen : List Int) (v : Nat) (hlk : lkIdx ITEM_ID ci = some v) :
    extractColIndexesAux (ITEM_ID :: rest) idx ci seen =
      .error (.wraps .reoccurringColumn) := by
  rw [extractColIndexesAux, if_pos rfl, hlk]

/-- Step reduction: first header column is level-shaped with a fresh level. -/
theorem auxStepLevel (c : String) (rest : List String) (idx : Nat)
    (ci : List (String × Nat)) (seen : List Int) (j : Int)
    (hc : c ≠ ITEM_ID) (hcl : colLevel c = some j) (hseen : j ∉ seen) :
    extractColIndexesAux (c :: rest) idx ci seen =
      extractColIndexesAux rest (idx + 1) (ci ++ [(c, idx)]) (j :: seen) := by
  obtain ⟨s, hstrip, hparse⟩ := Option.bind_eq_some.mp hcl
  rw [extractColIndexesAux, if_neg hc]
  simp only [hstrip, hparse, if_neg hseen]

/-- Step reduction: first header column repeats an already-seen level. -/
theorem auxStepLevelDup (c : String) (rest : List String) (idx : Nat)
    (ci : List (String × Nat)) (seen : List Int) (j : Int)
    (hc : c ≠ ITEM_ID) (hcl : colLevel c = some j) (hseen : j ∈ seen) :
    extractColIndexesAux (c :: rest) idx ci seen =
      .error (.wraps .reoccurringColumn) := by
  obtain ⟨s, hstrip, hparse⟩ := Option.bind_eq_some.mp hcl
  rw [extractColIndexesAux, if_neg hc]
  simp only [hstrip, hparse, if_pos hseen]

/-- Step reduction: first header column is neither `item_id` nor level-shaped. -/
theorem auxStepBad (c : String) (rest : List String) (idx : Nat)
    (ci : List (String × Nat)) (seen : List Int)
    (hc : c ≠ ITEM_ID) (hcl : colLevel c = none) :
    extractColIndexesAux (c :: rest) idx ci seen = .error (.wraps .unknownColumn) := by
  rw [extractColIndexesAux, if_neg hc]
  rw [colLevel] at hcl
  cases hstrip : stripLevelPre c.data with
  | none => simp only [hstrip]
  | some s =>
    rw [hstrip, Option.some_bind] at hcl
    simp only [hstrip, hcl]

theorem extractColIndexesAux_err :
    ∀ (cols : List String) (idx : Nat) (ci : List (String × Nat)) (seen : List Int)
      (e : GoError), extractColIndexesAux cols idx ci seen = .error e → ∃ s, e = .wraps s
  | [], _, _, _, e, h => by simp [extractColIndexesAux] at h
  | c :: rest, idx, ci, seen, e, h => by
    by_cases hc : c = ITEM_ID
    · subst hc
      cases hlk : lkIdx ITEM_ID ci with
      | some v =>
        rw [auxStepItemDup rest idx ci seen v hlk] at h
        exact ⟨.reoccurringColumn, (Except.error.inj h).symm⟩
      | none =>
        rw [auxStepItemNew rest idx ci seen hlk] at h
        exact extractColIndexesAux_err rest _ _ _ e h
    · cases hcl : colLevel c with
      | none =>
        rw [auxStepBad c rest idx ci seen hc hcl] at h
        exact ⟨.unknownColumn, (Except.error.inj h).symm⟩
      | some j =>
        by_cases hseen : j ∈ seen
        · rw [auxStepLevelDup c rest idx ci seen j hc hcl hseen] at h
          exact ⟨.reoccurringColumn, (Except.error.inj h).symm⟩
        · rw [auxStepLevel c rest idx ci seen j hc hcl hseen] at h
          exact extractColIndexesAux_err rest _ _ _ e h

theorem extractColIndexesAux_seen_mono :
    ∀ (cols : List String) (idx : Nat) (ci : List (String × Nat)) (seen : List Int)
      (out : List (String × Nat) × List Int),
      extractColIndexesAux cols idx ci seen = .ok out → ∀ x ∈ seen, x ∈ out.2
  | [], _, ci, seen, out, h => by
    rw [extractColIndexesAux] at h
    cases h
    exact fun x hx => hx
  | c :: rest, idx, ci, seen, out, h => by
    by_cases hc : c = ITEM_ID
    · subst hc
      cases hlk : lkIdx ITEM_ID ci with
      | some v => rw [auxStepItemDup rest idx ci seen v hlk] at h; cases h
      | none =>
        rw [auxStepItemNew rest idx ci seen hlk] at h
        exact extractColIndexesAux_seen_mono rest _ _ _ out h
    · cases hcl : colLevel c with
      | none => rw [auxStepBad c rest idx ci seen hc hcl] at h; cases h
      | some j =>
        by_cases hseen : j ∈ seen
        · rw [auxStepLevelDup c rest idx ci seen j hc hcl hseen] at h; cases h
        · rw [auxStepLevel c rest idx ci seen j hc hcl hseen] at h
          intro x hx
          exact extractColIndexesAux_seen_mono rest _ _ _ out h x
            (List.mem_cons_of_mem j hx)

theorem extractColIndexesAux_seen_mem :
    ∀ (cols : List String) (idx : Nat) (ci : List (String × Nat)) (seen : List Int)
      (out : List (String × Nat) × List Int),
      extractColIndexesAux cols idx ci seen = .ok out →
      ∀ c ∈ cols, ∀ j : Int, colLevel c = some j → j ∈ out.2
  | [], _, _, _, _, _ => by
    intro c hc
    exact absurd hc (List.not_mem_nil c)
  | c :: rest, idx, ci, seen, out, h => by
    intro c' hc' j hj
    by_cases hc : c = ITEM_ID
    · subst hc
      cases hlk : lkIdx ITEM_ID ci with
      | some v => rw [auxStepItemDup rest idx ci seen v hlk] at h; cases h
      | none =>
        rw [auxStepItemNew rest idx ci seen hlk] at h
        rcases List.mem_cons.mp hc' with he | hmem
        · subst he
          rw [colLevel_itemId] at hj
          exact Option.noConfusion hj
        · exact extractColIndexesAux_seen_mem rest _ _ _ out h c' hmem j hj
    · cases hcl : colLevel c with
      | none => rw [auxStepBad c rest idx ci seen hc hcl] at h; cases h
      | some j₀ =>
        by_cases hseen : j₀ ∈ seen
        · rw [auxStepLevelDup c rest idx ci seen j₀ hc hcl hseen] at h; cases h
        · rw [auxStepLevel c rest idx ci seen j₀ hc hcl hseen] at h
          rcases List.mem_cons.mp hc' with he | hmem
          · subst he
            rw [hcl] at hj
            have hjj : j = j₀ := (Option.some.inj hj).symm
            subst hjj
            exact extractColIndexesAux_seen_mono rest _ _ _ out h j
              (List.mem_cons_self j seen)
          · exact extractColIndexesAux_seen_mem rest _ _ _ out h c' hmem j hj

theorem extractColIndexesAux_seen_src :
    ∀ (cols : List String) (idx : Nat) (ci : List (String × Nat)) (seen : List Int)
      (out : List (String × Nat) × List Int),
      extractColIndexesAux cols idx ci seen = .ok out →
      ∀ x ∈ out.2, x ∈ seen ∨ ∃ c ∈ cols, colLevel c = some x
  | [], _, ci, seen, out, h => by
    rw [extractColIndexesAux] at h
    cases h
    exact fun x hx => Or.inl hx
  | c :: rest, idx, ci, seen, out, h => by
    intro x hx
    by_cases hc : c = ITEM_ID
    · subst hc
      cases hlk : lkIdx ITEM_ID ci with
      | some v => rw [auxStepItemDup rest idx ci seen v hlk] at h; cases h
      | none =>
        rw [auxStepItemNew rest idx ci seen hlk] at h
        rcases extractColIndexesAux_seen_src rest _ _ _ out h x hx with h' | ⟨c', hm, hcl⟩
        · exact Or.inl h'
        · exact Or.inr ⟨c', List.mem_cons_of_mem _ hm, hcl⟩
    · cases hcl : colLevel c with
      | none => rw [auxStepBad c rest idx ci seen hc hcl] at h; cases h
      | some j₀ =>
        by_cases hseen : j₀ ∈ seen
        · rw [auxStepLevelDup c rest idx ci seen j₀ hc hcl hseen] at h; cases h
        · rw [auxStepLevel c rest idx ci seen j₀ hc hcl hseen] at h
          rcases extractColIndexesAux_seen_src rest _ _ _ out h x hx with h' | ⟨c', hm, hcl'⟩
          · rcases List.mem_cons.mp h' with he | hmem
            · subst he
              exact Or.inr ⟨c, List.mem_cons_self c rest, hcl⟩
            · exact Or.inl hmem
          · exact Or.inr ⟨c', List.mem_cons_of_mem _ hm, hcl'⟩

theorem extractColIndexesAux_badcol :
    ∀ (cols : List String) (idx : Nat) (ci : List (String × Nat)) (seen : List Int)
      (c : String), c ∈ cols → c ≠ ITEM_ID → colLevel c = none →
      ∃ e, extractColIndexesAux cols idx ci seen = .error e
  | [], _, _, _, c, hm, _, _ => absurd hm (List.not_mem_nil c)
  | h₀ :: rest, idx, ci, seen, c, hm, hcni, hcl => by
    by_cases hc : h₀ = ITEM_ID
    · subst hc
      cases hlk : lkIdx ITEM_ID ci with
      | some v => exact ⟨_, auxStepItemDup rest idx ci seen v hlk⟩
      | none =>
        have hmem : c ∈ rest := by
          rcases List.mem_cons.mp hm with he | hmem
          · exact absurd he hcni
          · exact hmem
        obtain ⟨e, he⟩ := extractColIndexesAux_badcol rest (idx + 1)
          (ci ++ [(ITEM_ID, idx)]) seen c hmem hcni hcl
        exact ⟨e, (auxStepItemNew rest idx ci seen hlk).trans he⟩
    · cases hcl₀ : colLevel h₀ with
      | none => exact ⟨_, auxStepBad h₀ rest idx ci seen hc hcl₀⟩
      | some j₀ =>
        by_cases hseen : j₀ ∈ seen
        · exact ⟨_, auxStepLevelDup h₀ rest idx ci seen j₀ hc hcl₀ hseen⟩
        · have hmem : c ∈ rest := by
            rcases List.mem_cons.mp hm with he | hmem
            · subst he
              rw [hcl] at hcl₀
              exact Option.noConfusion hcl₀
            · exact hmem
          obtain ⟨e, he⟩ := extractColIndexesAux_badcol rest (idx + 1)
            (ci ++ [(h₀, idx)]) (j₀ :: seen) c hmem hcni hcl
          exact ⟨e, (auxStepLevel h₀ rest idx ci seen j₀ hc hcl₀ hseen).trans he⟩

theorem extractColIndexesAux_ok :
    ∀ (cols : List String) (idx : Nat) (ci : List (String × Nat)) (seen : List Int),
      (∀ c ∈ cols, c = ITEM_ID ∨ (colLevel c).isSome = true) →
      (ITEM_ID ∈ cols → lkIdx ITEM_ID ci = none) →
      (∀ c ∈ cols, ∀ j : Int, colLevel c = some j → j ∉ seen) →
      cols.Pairwise (fun c₁ c₂ => ¬(c₁ = ITEM_ID ∧ c₂ = ITEM_ID) ∧
        ∀ j : Int, colLevel c₁ = some j → colLevel c₂ ≠ some j) →
      ∃ seen', extractColIndexesAux cols idx ci seen = .ok (ci ++ hdrEntries cols idx, seen') ∧
        ∀ x : Int, x ∈ seen' ↔ x ∈ seen ∨ x ∈ cols.filterMap colLevel
  | [], idx, ci, seen, _, _, _, _ =>
    ⟨seen, by simp [extractColIndexesAux, hdrEntries], fun x => by simp⟩
  | c :: rest, idx, ci, seen, hShape, hItem, hSeen, hPW => by
    rw [List.pairwise_cons] at hPW
    obtain ⟨hHead, hPWrest⟩ := hPW
    by_cases hc : c = ITEM_ID
    · subst hc
      have hlk : lkIdx ITEM_ID ci = none := hItem (List.mem_cons_self _ _)
      have hNoMore : ITEM_ID ∉ rest := by
        intro hmem
        exact (hHead ITEM_ID hmem).1 ⟨rfl, rfl⟩
      obtain ⟨seen', hok, hmem⟩ := extractColIndexesAux_ok rest (idx + 1)
        (ci ++ [(ITEM_ID, idx)]) seen
        (fun c' hc' => hShape c' (List.mem_cons_of_mem _ hc'))
        (fun hmem => absurd hmem hNoMore)
        (fun c' hc' j hj => hSeen c' (List.mem_cons_of_mem _ hc') j hj)
        hPWrest
      refine ⟨seen', ?_, ?_⟩
      · rw [auxStepItemNew rest idx ci seen hlk, hok, List.append_assoc]
        rfl
      · intro x
        rw [hmem x]
        simp [List.filterMap_cons, colLevel_itemId]
    · have hSome : (colLevel c).isSome = true := by
        rcases hShape c (List.mem_cons_self _ _) with h | h
        · exact absurd h hc
        · exact h
      obtain ⟨j, hcl⟩ := Option.isSome_iff_exists.mp hSome
      have hjseen : j ∉ seen := hSeen c (List.mem_cons_self _ _) j hcl
      obtain ⟨seen', hok, hmem⟩ := extractColIndexesAux_ok rest (idx + 1)
        (ci ++ [(c, idx)]) (j :: seen)
        (fun c' hc' => hShape c' (List.mem_cons_of_mem _ hc'))
        (fun hmemI => by
          rw [lkIdx_append, hItem (List.mem_cons_of_mem _ hmemI)]
          simp [lkIdx, Ne.symm hc])
        (fun c' hc' j' hj' hj'mem => by
          rcases List.mem_cons.mp hj'mem with he | hmem'
          · exact (hHead c' hc').2 j hcl (he ▸ hj')
          · exact hSeen c' (List.mem_cons_of_mem _ hc') j' hj' hmem')
        hPWrest
      refine ⟨seen', ?_, ?_⟩
      · rw [auxStepLevel c rest idx ci seen j hc hcl hjseen, hok, List.append_assoc]
        rfl
      · intro x
        rw [hmem x]
        simp only [List.filterMap_cons, hcl, List.mem_cons]
        tauto

/-! ### Row-loop lemmas -/

theorem extractLevelsAux_err :
    ∀ (row : List String) (ci : List (String × Nat)) (rem i : Nat) (par : String)
      (e : GoError), extractLevelsAux row ci rem i par = .error e →
      (∃ s, e = .wraps s) ∨ ∃ c, e = .missingIndex c
  | row, ci, 0, i, par, e, h => by simp [extractLevelsAux] at h
  | row, ci, rem + 1, i, par, e, h => by
    rw [extractLevelsAux] at h
    cases hlk : lkIdx (levelName i) ci with
    | none =>
      simp only [hlk] at h
      exact Or.inr ⟨levelName i, (Except.error.inj h).symm⟩
    | some index =>
      simp only [hlk] at h
      by_cases hb : index < row.length
      · rw [if_pos hb] at h
        by_cases hg : i ≠ 1 ∧ par = "" ∧ row.getD index "" ≠ ""
        · rw [if_pos hg] at h
          exact Or.inl ⟨.missingParentElement, (Except.error.inj h).symm⟩
        · rw [if_neg hg] at h
          cases hrec : extractLevelsAux row ci rem (i + 1) (row.getD index "") with
          | error e' =>
            rw [hrec] at h
            have he : e' = e := Except.error.inj h
            subst he
            exact extractLevelsAux_err row ci rem (i + 1) _ e' hrec
          | ok rest =>
            rw [hrec] at h
            exact absurd h (by simp)
      · rw [if_neg hb] at h
        exact Or.inl ⟨.missingRequiredValue, (Except.error.inj h).symm⟩

theorem extractLevelsAux_known :
    ∀ (row : List String) (ci : List (String × Nat)) (rem i : Nat) (par : String)
      (e : GoError),
      (∀ m, i ≤ m → m < i + rem → (lkIdx (levelName m) ci).isSome = true) →
      extractLevelsAux row ci rem i par = .error e → IsKnownUserError e = true
  | row, ci, 0, i, par, e, _, h => by simp [extractLevelsAux] at h
  | row, ci, rem + 1, i, par, e, hcanon, h => by
    rw [extractLevelsAux] at h
    cases hlk : lkIdx (levelName i) ci with
    | none =>
      have hs := hcanon i (le_refl i) (by omega)
      rw [hlk] at hs
      simp at hs
    | some index =>
      simp only [hlk] at h
      by_cases hb : index < row.length
      · rw [if_pos hb] at h
        by_cases hg : i ≠ 1 ∧ par = "" ∧ row.getD index "" ≠ ""
        · rw [if_pos hg] at h
          rw [← Except.error.inj h]
          rfl
        · rw [if_neg hg] at h
          cases hrec : extractLevelsAux row ci rem (i + 1) (row.getD index "") with
          | error e' =>
            rw [hrec] at h
            rw [← Except.error.inj h]
            exact extractLevelsAux_known row ci rem (i + 1) _ e'
              (fun m hm1 hm2 => hcanon m (by omega) (by omega)) hrec
          | ok rest =>
            rw [hrec] at h
            exact absurd h (by simp)
      · rw [if_neg hb] at h
        rw [← Except.error.inj h]
        rfl

theorem extractLevelsAux_ok_empty :
    ∀ (row : List String) (ci : List (String × Nat)) (rem i : Nat) (ls : List String),
      2 ≤ i → extractLevelsAux row ci rem i "" = .ok ls →
      ∀ m, i ≤ m → m < i + rem → ∀ ix, lkIdx (levelName m) ci = some ix →
        ix < row.length → row.getD ix "" = ""
  | row, ci, 0, i, ls, _, _ => by
    intro m h1 h2
    omega
  | row, ci, rem + 1, i, ls, hi, h => by
    rw [extractLevelsAux] at h
    cases hlk : lkIdx (levelName i) ci with
    | none =>
      rw [hlk] at h
      exact absurd h (by simp)
    | some index =>
      simp only [hlk] at h
      by_cases hb : index < row.length
      · rw [if_pos hb] at h
        by_cases hcur : row.getD index "" = ""
        · rw [if_neg (fun hg => hg.2.2 hcur)] at h
          rw [hcur] at h
          cases hrec : extractLevelsAux row ci rem (i + 1) "" with
          | error e' =>
            rw [hrec] at h
            exact absurd h (by simp)
          | ok rest =>
            rw [hrec] at h
            intro m h1 h2 ix hmix hixb
            rcases Nat.eq_or_lt_of_le h1 with he | hlt
            · subst he
              rw [hlk] at hmix
              rw [← Option.some.inj hmix]
              exact hcur
            · exact extractLevelsAux_ok_empty row ci rem (i + 1) rest (by omega) hrec
                m (by omega) (by omega) ix hmix hixb
        · rw [if_pos ⟨by omega, by trivial, hcur⟩] at h
          exact absurd h (by simp)
      · rw [if_neg hb] at h
        exact absurd h (by simp)

theorem extractHierarchyLevels_emptyParent_fails
    (row : List String) (ci : List (String × Nat)) (j idx1 idxj : Nat)
    (h1 : lkIdx (levelName 1) ci = some idx1) (h1b : idx1 < row.length)
    (h1e : row.getD idx1 "" = "")
    (hj : 1 < j) (hjle : j ≤ ci.length - 1)
    (hjx : lkIdx (levelName j) ci = some idxj) (hjb : idxj < row.length)
    (hje : row.getD idxj "" ≠ "") :
    ∃ e, extractHierarchyLevels row ci = .error e := by
  cases hres : extractHierarchyLevels row ci with
  | error e => exact ⟨e, rfl⟩
  | ok ls =>
    exfalso
    rw [extractHierarchyLevels] at hres
    obtain ⟨rem, hrem⟩ : ∃ rem, ci.length - 1 = rem + 1 := ⟨ci.length - 2, by omega⟩
    rw [hrem, extractLevelsAux] at hres
    simp only [h1] at hres
    rw [if_pos h1b, if_neg (by simp)] at hres
    rw [h1e] at hres
    cases hrec : extractLevelsAux row ci rem 2 "" with
    | error e' =>
      rw [hrec] at hres
      exact absurd hres (by simp)
    | ok rest =>
      rw [hrec] at hres
      exact hje (extractLevelsAux_ok_empty row ci rem 2 rest (le_refl 2) hrec j hj
        (by omega) idxj hjx hjb)

theorem processRow_err_known (ci : List (String × Nat))
    (hcanon : ∀ m, 1 ≤ m → m ≤ ci.length - 1 → (lkIdx (levelName m) ci).isSome = true)
    (t : Node) (row : List String) (e : GoError)
    (h : processRow ci t row = .error e) : IsKnownUserError e = true := by
  rw [processRow] at h
  cases hx : extractHierarchyLevels row ci with
  | error e' =>
    rw [hx] at h
    rw [← Except.error.inj h]
    exact extractLevelsAux_known row ci (ci.length - 1) 1 "" e'
      (fun m hm1 hm2 => hcanon m hm1 (by omega)) hx
  | ok levels =>
    simp only [hx] at h
    cases hit : lkIdx ITEM_ID ci with
    | none =>
      simp only [hit] at h
      rw [← Except.error.inj h]
      rfl
    | some itemIndex =>
      simp only [hit] at h
      by_cases hbnd : itemIndex < row.length
      · rw [if_pos hbnd] at h
        exact absurd h (by simp)
      · rw [if_neg hbnd] at h
        rw [← Except.error.inj h]
        rfl

theorem processRow_fails_of_extract (ci : List (String × Nat)) (t : Node)
    (row : List String) (h : ∃ e₀, extractHierarchyLevels row ci = .error e₀) :
    ∃ e, processRow ci t row = .error e := by
  obtain ⟨e₀, he⟩ := h
  refine ⟨e₀, ?_⟩
  rw [processRow, he]

theorem seqProcessRows_known (ci : List (String × Nat)) (badrow : List String)
    (hknown : ∀ (t : Node) (row : List String) (e : GoError),
      processRow ci t row = .error e → IsKnownUserError e = true)
    (hbad : ∀ t : Node, ∃ e, processRow ci t badrow = .error e) :
    ∀ (rows : List (List String)) (t : Node), badrow ∈ rows →
      ∃ e, seqProcessRows ci t rows = .error e ∧ IsKnownUserError e = true
  | [], t, hmem => absurd hmem (List.not_mem_nil badrow)
  | r :: rs, t, hmem => by
    cases hpr : processRow ci t r with
    | error e =>
      refine ⟨e, ?_, hknown t r e hpr⟩
      rw [seqProcessRows, hpr]
    | ok t' =>
      rcases List.mem_cons.mp hmem with he | hmem'
      · subst he
        obtain ⟨e, he⟩ := hbad t
        rw [hpr] at he
        exact absurd he (by simp)
      · obtain ⟨e, hrun, hk⟩ := seqProcessRows_known ci badrow hknown hbad rs t' hmem'
        refine ⟨e, ?_, hk⟩
        rw [seqProcessRows, hpr]
        exact hrun

theorem processRow_err (ci : List (String × Nat)) (t : Node) (row : List String)
    (e : GoError) (h : processRow ci t row = .error e) :
    (∃ s, e = .wraps s) ∨ ∃ c, e = .missingIndex c := by
  rw [processRow] at h
  cases hx : extractHierarchyLevels row ci with
  | error e' =>
    rw [hx] at h
    have hee : e' = e := Except.error.inj h
    subst hee
    exact extractLevelsAux_err row ci (ci.length - 1) 1 "" e' hx
  | ok levels =>
    simp only [hx] at h
    cases hit : lkIdx ITEM_ID ci with
    | none =>
      simp only [hit] at h
      exact Or.inl ⟨.missingRequiredValue, (Except.error.inj h).symm⟩
    | some itemIndex =>
      simp only [hit] at h
      by_cases hbnd : itemIndex < row.length
      · rw [if_pos hbnd] at h
        exact absurd h (by simp)
      · rw [if_neg hbnd] at h
        exact Or.inl ⟨.missingRequiredValue, (Except.error.inj h).symm⟩

theorem seqProcessRows_err :
    ∀ (ci : List (String × Nat)) (rows : List (List String)) (t : Node) (e : GoError),
      seqProcessRows ci t rows = .error e →
      ∃ t' row, processRow ci t' row = .error e
  | ci, [], t, e, h => by
    rw [seqProcessRows] at h
    exact absurd h (by simp)
  | ci, r :: rs, t, e, h => by
    rw [seqProcessRows] at h
    cases hpr : processRow ci t r with
    | error e' =>
      rw [hpr] at h
      refine ⟨t, r, ?_⟩
      rw [hpr, Except.error.inj h]
    | ok t' =>
      rw [hpr] at h
      exact seqProcessRows_err ci rs t' e h

/-! ## Claim theorems -/

/-- Claim C1: on the scenario-1 input, `ParseFile` returns no error and
exactly the expected tree — root → "1" → ("12" → "103" → "12507622" leaf,
"13" → "32622917" leaf), with no other nodes and only the two identifier
nodes flagged as leaves (all captured by structural equality with
`exampleTree`).  Concurrency is modelled as the insertion fold over the
records in some order; both orders of the two data rows give the same
tree, so the result is independent of the (positive) worker count. -/
theorem c1_scenario1 :
    seqParseFile (parseCSV exampleInput) = .ok exampleTree ∧
    seqParseFile [["level_1", "level_2", "level_3", "item_id"],
      ["1", "13", "", "32622917"], ["1", "12", "103", "12507622"]] = .ok exampleTree :=
  ⟨rfl, rfl⟩

/-- Claim C2 counterexample: a valid input (header `level_1,item_id`, two data
rows that each process without error) whose tree depends on the order of the
rows' insertions: in one order the identifier "a" of the path-less second row
overwrites the intermediate node "a" and its subtree, in the other it does
not, so the two folds give different trees. -/
theorem c2_cex :
    ([["a", "x"], ["", "a"]] : List (List String)).Perm [["", "a"], ["a", "x"]] ∧
    seqParseFile [["level_1", "item_id"], ["a", "x"], ["", "a"]] =
      .ok (.mk false [("a", .mk true [])]) ∧
    seqParseFile [["level_1", "item_id"], ["", "a"], ["a", "x"]] =
      .ok (.mk false [("a", .mk true [("x", .mk true [])])]) ∧
    (Node.mk false [("a", Node.mk true [])] ≠
      Node.mk false [("a", Node.mk true [("x", Node.mk true [])])]) :=
  ⟨by decide, rfl, rfl, by simp⟩

/-- Claim C2 (amended): folding the records' insertions is invariant under
permutation of the records provided the records are pairwise non-interfering:
any two records' leaf positions (hierarchy path extended by the item
identifier) are equal or prefix-incomparable.  Without that proviso the
original claim fails (`c2_cex`): a record whose leaf position is a proper
prefix of another's overwrites that record's nodes in one order only.  In
particular the sequential and any concurrent processing order agree on such
inputs. -/
theorem c2_amended_fold_perm (rs rs' : List (List String × String))
    (hperm : rs.Perm rs')
    (hsep : ∀ r₁ ∈ rs, ∀ r₂ ∈ rs,
      fullPos r₁ = fullPos r₂ ∨
        (isPre (fullPos r₁) (fullPos r₂) = false ∧
         isPre (fullPos r₂) (fullPos r₁) = false))
    (t : Node) : rs.foldl rowIns t = rs'.foldl rowIns t := by
  refine hperm.foldl_eq' ?_ t
  intro r₁ h₁ r₂ h₂ z
  exact addNode_comm r₁.1 r₁.2 r₂.1 r₂.2 (hsep r₁ h₁ r₂ h₂) z

/-- Witness for claim C2 (amended) at concrete non-interfering records. -/
theorem c2_amended_fold_perm_witness :
    ([(["a"], "x"), (["b"], "y")] : List (List String × String)).foldl rowIns (.mk false []) =
      ([(["b"], "y"), (["a"], "x")] : List (List String × String)).foldl rowIns (.mk false []) :=
  c2_amended_fold_perm [(["a"], "x"), (["b"], "y")] [(["b"], "y"), (["a"], "x")]
    (by decide) (by decide) (.mk false [])

/-- Claim C3 counterexample: `AddNode` is not monotonic.  After inserting item
"x" under path ["a"], the node at path a/x exists; inserting item "a" at the
root then replaces the child "a" (and its whole subtree) by a fresh leaf, so
the node at a/x is gone. -/
theorem c3_cex :
    lookupPath (Node.addNode (.mk false []) ["a"] "x") ["a", "x"] = some (.mk true []) ∧
    lookupPath (Node.addNode (Node.addNode (.mk false []) ["a"] "x") [] "a")
      ["a", "x"] = none :=
  ⟨rfl, rfl⟩

/-- Claim C3 (amended): `AddNode` is monotonic away from the inserted leaf
position: every node whose path does not extend (or equal) the inserted
path-plus-identifier position is still present afterwards with an unchanged
leaf flag (its children mapping may gain entries).  The exception the
counterexample forces: the child keyed by the item identifier at the end of
the path is created or *replaced* by a fresh leaf, discarding any previous
subtree there. -/
theorem c3_amended_keeps (t : Node) (p : List String) (i : String)
    (q : List String) (v : Node)
    (hv : lookupPath t q = some v) (hq : isPre (p ++ [i]) q = false) :
    ∃ v', lookupPath (t.addNode p i) q = some v' ∧ v'.item = v.item :=
  addNode_keeps p t i q v hv hq

/-- Witness for claim C3 (amended) at a concrete tree and disjoint insertion. -/
theorem c3_amended_keeps_witness :
    ∃ v', lookupPath (Node.addNode (.mk false [("a", .mk true [])]) ["b"] "y") ["a"] =
      some v' ∧ v'.item = (Node.mk true []).item :=
  c3_amended_keeps (.mk false [("a", .mk true [])]) ["b"] "y" ["a"] (.mk true []) rfl rfl

/-- Claim C4 counterexample: a data row whose `level_1` field (and every other
level field) is empty is silently accepted, not rejected: `ParseFile` returns
no error and inserts the row's identifier directly at the root. -/
theorem c4_cex :
    seqParseFile [["level_1", "level_2", "level_3", "item_id"], ["", "", "", "a"]] =
      .ok (.mk false [("a", .mk true [])]) := rfl

/-- Claim C4 (amended): under a successfully resolved header whose level roles
`level_1 .. level_(len-1)` are all present in the mapping, an input containing
a data row with an empty `level_1` field but a non-empty deeper level field
fails with a record error recognized by `IsKnownUserError`.  The original
claim fails in two respects forced by the counterexample: a row whose level
fields are all empty is accepted (no error at all), and the record error
raised does not name `level_1`. -/
theorem c4_amended (header : List String) (rows : List (List String))
    (ci : List (String × Nat)) (row : List String) (j idx1 idxj : Nat)
    (hci : extractColIndexes header = .ok ci)
    (hcanon : ∀ m, 1 ≤ m → m ≤ ci.length - 1 → (lkIdx (levelName m) ci).isSome = true)
    (hrow : row ∈ rows)
    (h1 : lkIdx (levelName 1) ci = some idx1) (h1b : idx1 < row.length)
    (h1e : row.getD idx1 "" = "")
    (hj : 1 < j) (hjle : j ≤ ci.length - 1)
    (hjx : lkIdx (levelName j) ci = some idxj) (hjb : idxj < row.length)
    (hje : row.getD idxj "" ≠ "") :
    ∃ e, seqParseFile (header :: rows) = .error e ∧ IsKnownUserError e = true := by
  obtain ⟨e, hrun, hk⟩ := seqProcessRows_known ci row
    (fun t r e' he' => processRow_err_known ci hcanon t r e' he')
    (fun t => processRow_fails_of_extract ci t row
      (extractHierarchyLevels_emptyParent_fails row ci j idx1 idxj h1 h1b h1e hj hjle
        hjx hjb hje))
    rows (.mk false []) hrow
  refine ⟨e, ?_, hk⟩
  rw [seqParseFile, hci]
  exact hrun

/-- Witness for claim C4 (amended) at a concrete input: empty `level_1`,
non-empty `level_2`. -/
theorem c4_amended_witness :
    ∃ e, seqParseFile [["level_1", "level_2", "item_id"], ["", "x", "id"]] = .error e ∧
      IsKnownUserError e = true :=
  c4_amended ["level_1", "level_2", "item_id"] [["", "x", "id"]]
    [("level_1", 0), ("level_2", 1), ("item_id", 2)] ["", "x", "id"] 2 0 1
    rfl
    (by
      intro m h1 h2
      simp only [List.length_cons, List.length_nil] at h2
      interval_cases m <;> decide)
    (by decide)
    rfl (by decide) rfl (by decide) (by decide) rfl (by decide) (by decide)

/-- Claim C5: for every header that consists exactly of `item_id` together
with the contiguous canonical level names `level_1 .. level_k` (k ≥ 1, any
order of appearance, each once — i.e. a permutation of `canonicalHeader k`),
schema resolution succeeds and returns a mapping with exactly k+1 entries,
sending each header name to its zero-based position in the header row. -/
theorem c5_schema_ok (k : Nat) (header : List String)
    (hk : 1 ≤ k) (hperm : header.Perm (canonicalHeader k)) :
    ∃ ci, extractColIndexes header = .ok ci ∧ ci.length = k + 1 ∧
      ∀ i, i < header.length → lkIdx (header.getD i "") ci = some i := by
  have hshape : ∀ c ∈ header, c = ITEM_ID ∨ (colLevel c).isSome = true := by
    intro c hc
    rcases List.mem_cons.mp (hperm.mem_iff.mp hc) with h | h
    · exact Or.inl h
    · obtain ⟨j, _, hcj⟩ := List.mem_map.mp h
      right
      rw [← hcj, colLevel_levelName]
      rfl
  have hcanonNodup : (canonicalHeader k).Nodup := by
    rw [canonicalHeader]
    refine List.nodup_cons.mpr ⟨?_, ?_⟩
    · intro hmem
      obtain ⟨j, _, hcj⟩ := List.mem_map.mp hmem
      exact levelName_ne_itemId (j + 1) hcj
    · refine List.Nodup.map ?_ (List.nodup_range k)
      intro a b hab
      exact Nat.succ_injective (levelName_inj hab)
  have hNodup : header.Nodup := hperm.symm.nodup hcanonNodup
  have hPW : header.Pairwise (fun c₁ c₂ => ¬(c₁ = ITEM_ID ∧ c₂ = ITEM_ID) ∧
      ∀ j : Int, colLevel c₁ = some j → colLevel c₂ ≠ some j) := by
    refine List.Pairwise.imp_of_mem ?_ hNodup
    intro c₁ c₂ h₁ h₂ hne
    constructor
    · rintro ⟨he₁, he₂⟩
      exact hne (he₁.trans he₂.symm)
    · intro j hj₁ hj₂
      rcases List.mem_cons.mp (hperm.mem_iff.mp h₁) with hI | hm₁
      · rw [hI, colLevel_itemId] at hj₁
        exact Option.noConfusion hj₁
      · rcases List.mem_cons.mp (hperm.mem_iff.mp h₂) with hI | hm₂
        · rw [hI, colLevel_itemId] at hj₂
          exact Option.noConfusion hj₂
        · obtain ⟨a, _, ha⟩ := List.mem_map.mp hm₁
          obtain ⟨b, _, hb⟩ := List.mem_map.mp hm₂
          rw [← ha, colLevel_levelName] at hj₁
          rw [← hb, colLevel_levelName] at hj₂
          have hab : a = b := by
            have h1' := Option.some.inj hj₁
            have h2' := Option.some.inj hj₂
            simp only [Int.ofNat_eq_coe] at h1' h2'
            omega
          exact hne (by rw [← ha, ← hb, hab])
  obtain ⟨seen', hok, hmem⟩ := extractColIndexesAux_ok header 0 [] []
    hshape (fun _ => rfl)
    (fun c hc j hj hjmem => absurd hjmem (List.not_mem_nil j)) hPW
  have hitem_mem : ITEM_ID ∈ header := hperm.mem_iff.mpr (List.mem_cons_self _ _)
  have hlv1_mem : levelName 1 ∈ header := by
    refine hperm.mem_iff.mpr (List.mem_cons_of_mem _ ?_)
    exact List.mem_map.mpr ⟨0, List.mem_range.mpr hk, rfl⟩
  have hitem : (lkIdx ITEM_ID (hdrEntries header 0)).isNone = false := by
    have hs := lkIdx_hdrEntries_isSome header 0 ITEM_ID hitem_mem
    cases h : lkIdx ITEM_ID (hdrEntries header 0)
    · rw [h] at hs
      exact absurd hs (by simp)
    · rfl
  have hlv1 : (lkIdx (levelName 1) (hdrEntries header 0)).isNone = false := by
    have hs := lkIdx_hdrEntries_isSome header 0 (levelName 1) hlv1_mem
    cases h : lkIdx (levelName 1) (hdrEntries header 0)
    · rw [h] at hs
      exact absurd hs (by simp)
    · rfl
  have hseenIff : ∀ x : Int, x ∈ seen' ↔ ∃ j, j < k ∧ x = Int.ofNat (j + 1) := by
    intro x
    rw [hmem x]
    simp only [List.not_mem_nil, false_or]
    rw [(hperm.filterMap colLevel).mem_iff]
    rw [canonicalHeader]
    simp only [List.filterMap_cons, colLevel_itemId]
    rw [List.filterMap_map]
    have hcomp : (colLevel ∘ fun j => levelName (j + 1)) =
        fun j => some (Int.ofNat (j + 1)) := by
      funext j
      exact colLevel_levelName (j + 1)
    rw [hcomp]
    simp only [List.mem_filterMap, List.mem_range, Option.some.injEq]
    constructor
    · rintro ⟨j, hj, hje⟩
      exact ⟨j, hj, hje.symm⟩
    · rintro ⟨j, hj, hje⟩
      exact ⟨j, hj, hje.symm⟩
  have hany : (seen'.any fun l => decide (1 < l) && !(seen'.contains (l - 1))) = false := by
    rw [List.any_eq_false]
    intro x hx hp
    obtain ⟨j, hj, hxe⟩ := (hseenIff x).mp hx
    subst hxe
    obtain ⟨hd, hc⟩ := (Bool.and_eq_true _ _).mp hp
    have h1 : (1 : Int) < Int.ofNat (j + 1) := of_decide_eq_true hd
    have hj1 : 1 ≤ j := by
      simp only [Int.ofNat_eq_coe] at h1
      omega
    have hsub : (Int.ofNat (j + 1)) - 1 = Int.ofNat j := by
      simp only [Int.ofNat_eq_coe]
      omega
    have hmem' : Int.ofNat j ∈ seen' :=
      (hseenIff _).mpr ⟨j - 1, by omega, by simp only [Int.ofNat_eq_coe]; omega⟩
    rw [hsub, Bool.not_eq_true'] at hc
    have hct : seen'.contains (Int.ofNat j) = true := by
      simpa using hmem'
    rw [hct] at hc
    exact Bool.noConfusion hc
  refine ⟨hdrEntries header 0, ?_, ?_, ?_⟩
  · rw [extractColIndexes]
    simp only [hok, List.nil_append]
    rw [hitem, hlv1, hany]
    rfl
  · rw [hdrEntries_length, hperm.length_eq]
    simp [canonicalHeader]
  · intro i hi
    have hg := lkIdx_hdrEntries_getD header 0 i hi hNodup
    simpa using hg

/-- Witness for claim C5 at k = 3 and a shuffled header. -/
theorem c5_schema_ok_witness :
    ∃ ci, extractColIndexes ["level_2", "item_id", "level_3", "level_1"] = .ok ci ∧
      ci.length = 3 + 1 ∧
      ∀ i, i < (["level_2", "item_id", "level_3", "level_1"] : List String).length →
        lkIdx ((["level_2", "item_id", "level_3", "level_1"] : List String).getD i "") ci =
          some i :=
  c5_schema_ok 3 ["level_2", "item_id", "level_3", "level_1"] (by decide) (by decide)

/-- Claim C6: for every header in which some level depth k > 1 is observed
(a column whose `level_` suffix parses to k) while depth k−1 is not observed —
in particular `level_3` present without `level_2` — schema resolution fails
with a schema error that `IsKnownUserError` recognizes, and `ParseFile`
returns that error (no tree) regardless of the data rows, which are never
processed. -/
theorem c6_gap_fails (header : List String) (rows : List (List String))
    (c : String) (kk : Int)
    (hc : c ∈ header) (hck : colLevel c = some kk) (hk : 1 < kk)
    (hgap : ∀ c' ∈ header, colLevel c' ≠ some (kk - 1)) :
    ∃ e, extractColIndexes header = .error e ∧ IsKnownUserError e = true ∧
      seqParseFile (header :: rows) = .error e := by
  cases haux : extractColIndexesAux header 0 [] [] with
  | error e =>
    obtain ⟨s, hs⟩ := extractColIndexesAux_err header 0 [] [] e haux
    subst hs
    have hres : extractColIndexes header = .error (.wraps s) := by
      rw [extractColIndexes, haux]
    refine ⟨.wraps s, hres, ?_, ?_⟩
    · rw [IsKnownUserError]
      exact knownAll s
    · rw [seqParseFile, hres]
  | ok out =>
    obtain ⟨ci, seen⟩ := out
    have hkseen : kk ∈ seen :=
      extractColIndexesAux_seen_mem header 0 [] [] (ci, seen) haux c hc kk hck
    have hknot : (kk - 1) ∉ seen := by
      intro hmem
      rcases extractColIndexesAux_seen_src header 0 [] [] (ci, seen) haux (kk - 1) hmem
        with h | ⟨c', hc', hcl'⟩
      · exact absurd h (List.not_mem_nil _)
      · exact hgap c' hc' hcl'
    have hresolved : extractColIndexes header =
        (if (lkIdx ITEM_ID ci).isNone then .error (.wraps .missingRequiredColumn)
         else if (lkIdx (levelName 1) ci).isNone then
           .error (.wraps .missingRequiredColumn)
         else if seen.any (fun l => decide (1 < l) && !(seen.contains (l - 1))) then
           .error (.wraps .missingParentElement)
         else .ok ci) := by
      rw [extractColIndexes, haux]
    by_cases hitem : (lkIdx ITEM_ID ci).isNone = true
    · have hres : extractColIndexes header = .error (.wraps .missingRequiredColumn) := by
        rw [hresolved, if_pos hitem]
      refine ⟨.wraps .missingRequiredColumn, hres, rfl, ?_⟩
      rw [seqParseFile, hres]
    · by_cases hlv1 : (lkIdx (levelName 1) ci).isNone = true
      · have hres : extractColIndexes header = .error (.wraps .missingRequiredColumn) := by
          rw [hresolved, if_neg hitem, if_pos hlv1]
        refine ⟨.wraps .missingRequiredColumn, hres, rfl, ?_⟩
        rw [seqParseFile, hres]
      · have hany : (seen.any fun l => decide (1 < l) && !(seen.contains (l - 1))) = true := by
          rw [List.any_eq_true]
          refine ⟨kk, hkseen, ?_⟩
          rw [Bool.and_eq_true _ _]
          refine ⟨decide_eq_true hk, ?_⟩
          rw [Bool.not_eq_true']
          cases hcontains : seen.contains (kk - 1) with
          | false => rfl
          | true =>
            exfalso
            apply hknot
            simpa using hcontains
        have hres : extractColIndexes header = .error (.wraps .missingParentElement) := by
          rw [hresolved, if_neg hitem, if_neg hlv1, if_pos hany]
        refine ⟨.wraps .missingParentElement, hres, rfl, ?_⟩
        rw [seqParseFile, hres]

/-- Witness for claim C6: header `level_1,level_3,item_id` (gap at depth 2). -/
theorem c6_gap_fails_witness :
    ∃ e, extractColIndexes ["level_1", "level_3", "item_id"] = .error e ∧
      IsKnownUserError e = true ∧
      seqParseFile [["level_1", "level_3", "item_id"], ["a", "b", "c"]] = .error e :=
  c6_gap_fails ["level_1", "level_3", "item_id"] [["a", "b", "c"]] "level_3" 3
    (by decide) (by decide) (by decide) (by decide)

/-- Claim C7 counterexample: a user-triggerable error that wraps no known
sentinel.  The header `level_1,level_02,item_id` resolves (the suffix `02`
parses to depth 2), but processing any data row then looks up the canonical
name `level_2`, which is absent from the mapping, producing the sentinel-free
"invalid index found" error, on which `IsKnownUserError` is false. -/
theorem c7_cex :
    seqParseFile [["level_1", "level_02", "item_id"], ["a", "b", "c"]] =
      .error (.missingIndex (levelName 2)) ∧
    IsKnownUserError (.missingIndex (levelName 2)) = false :=
  ⟨rfl, rfl⟩

/-- Claim C7 (amended): every error `ParseFile` returns other than a stream
read failure either wraps a known user-error sentinel (so `IsKnownUserError`
is true) or is the sentinel-free missing-level-index error — the single
exception the counterexample forces, reachable only through non-canonical
level names such as `level_02`. -/
theorem c7_amended (records : List (List String)) (e : GoError)
    (he : seqParseFile records = .error e) (hr : e ≠ .readFailure) :
    IsKnownUserError e = true ∨ ∃ c, e = .missingIndex c := by
  cases records with
  | nil =>
    rw [seqParseFile] at he
    exact absurd (Except.error.inj he).symm hr
  | cons header rows =>
    rw [seqParseFile] at he
    cases hci : extractColIndexes header with
    | error e' =>
      rw [hci] at he
      have hee : e' = e := Except.error.inj he
      subst hee
      left
      rw [extractColIndexes] at hci
      cases haux : extractColIndexesAux header 0 [] [] with
      | error e₀ =>
        simp only [haux] at hci
        obtain ⟨s, hs⟩ := extractColIndexesAux_err header 0 [] [] e₀ haux
        rw [← Except.error.inj hci, hs, IsKnownUserError]
        exact knownAll s
      | ok out =>
        obtain ⟨ci, seen⟩ := out
        simp only [haux] at hci
        by_cases h1 : (lkIdx ITEM_ID ci).isNone = true
        · rw [if_pos h1] at hci
          rw [← Except.error.inj hci]
          rfl
        · rw [if_neg h1] at hci
          by_cases h2 : (lkIdx (levelName 1) ci).isNone = true
          · rw [if_pos h2] at hci
            rw [← Except.error.inj hci]
            rfl
          · rw [if_neg h2] at hci
            by_cases h3 : (seen.any fun l => decide (1 < l) && !(seen.contains (l - 1))) = true
            · rw [if_pos h3] at hci
              rw [← Except.error.inj hci]
              rfl
            · rw [if_neg h3] at hci
              exact absurd hci (by simp)
    | ok ci =>
      simp only [hci] at he
      obtain ⟨t', row, hpr⟩ := seqProcessRows_err ci rows (.mk false []) e he
      rcases processRow_err ci t' row e hpr with ⟨s, hs⟩ | ⟨c, hc⟩
      · left
        rw [hs, IsKnownUserError]
        exact knownAll s
      · exact Or.inr ⟨c, hc⟩

/-- Witness for claim C7 (amended): an unknown-column header error is
classified as a known user error. -/
theorem c7_amended_witness :
    IsKnownUserError (.wraps .unknownColumn) = true ∨
      ∃ c, GoError.wraps .unknownColumn = .missingIndex c :=
  c7_amended [["bogus"]] (.wraps .unknownColumn) rfl (by decide)

/-- Claim C8 counterexample: a header containing the level-shaped name
`level_0` — integer suffix < 1 — is *not* rejected: resolution succeeds,
mapping `level_0` alongside `level_1` and `item_id`. -/
theorem c8_cex :
    extractColIndexes ["level_0", "level_1", "item_id"] =
      .ok [("level_0", 0), ("level_1", 1), ("item_id", 2)] := rfl

/-- Claim C8 (amended): schema resolution recognizes exactly two header-name
shapes — the literal `item_id` and the `level_` prefix with an
`strconv.Atoi`-parsable integer suffix of *any* value (the depth ≥ 1
restriction of the original claim does not exist: `level_0` or `level_-1`
are accepted by the shape check, as `c8_cex` shows) — and any header
containing a name of neither shape is rejected. -/
theorem c8_amended (header : List String) (c : String)
    (hc : c ∈ header) (hni : c ≠ ITEM_ID) (hnl : colLevel c = none) :
    ∃ e, extractColIndexes header = .error e := by
  obtain ⟨e, he⟩ := extractColIndexesAux_badcol header 0 [] [] c hc hni hnl
  refine ⟨e, ?_⟩
  rw [extractColIndexes, he]

/-- Witness for claim C8 (amended) at a header with an unrecognized name. -/
theorem c8_amended_witness :
    ∃ e, extractColIndexes ["level_1", "item_id", "foo"] = .error e :=
  c8_amended ["level_1", "item_id", "foo"] "foo" (by decide) (by decide) rfl

/-- Claim C9: tree insertion is idempotent — applying `AddNode` twice with
the same path and item identifier yields the same tree as applying it once,
for every starting tree. -/
theorem c9_addNode_idem (t : Node) (p : List String) (i : String) :
    (t.addNode p i).addNode p i = t.addNode p i :=
  addNode_idem p t i

/-- Claim C10: an empty item-identifier value is accepted.  When the row's
hierarchy path extracts successfully and the `item_id` column index is within
the row's bounds but holds the empty string, row processing succeeds — no
missing-required-value error — and a leaf node keyed by the empty string is
inserted at the end of the row's hierarchy path. -/
theorem c10_empty_item_accepted (ci : List (String × Nat)) (t : Node)
    (row : List String) (levels : List String) (idx : Nat)
    (hl : extractHierarchyLevels row ci = .ok levels)
    (hi : lkIdx ITEM_ID ci = some idx) (hb : idx < row.length)
    (he : row.getD idx "" = "") :
    processRow ci t row = .ok (t.addNode levels "") ∧
    lookupPath (t.addNode levels "") (levels ++ [""]) = some (.mk true []) := by
  constructor
  · rw [processRow]
    simp only [hl, hi, if_pos hb]
    rw [he]
  · exact lookupPath_addNode_self levels t ""

/-- Witness for claim C10 at a concrete row with an empty identifier field. -/
theorem c10_empty_item_accepted_witness :
    processRow [("level_1", 0), ("item_id", 1)] (.mk false []) ["a", ""] =
      .ok (Node.addNode (.mk false []) ["a"] "") ∧
    lookupPath (Node.addNode (.mk false []) ["a"] "") (["a"] ++ [""]) =
      some (.mk true []) :=
  c10_empty_item_accepted [("level_1", 0), ("item_id", 1)] (.mk false []) ["a", ""]
    ["a"] 1 rfl rfl (by decide) rfl

end CsvHierarchy
